import Mathlib

/-!
Verification of the span-normalization / merge algorithm and the
leave-one-out interpretation helpers of the `HighlightedTextbox` component
(`gradio/components/highlighted_textbox.py`).

Modelling choices of the shallow embedding:
* Text is a `List Char`; Python string slicing with nonnegative bounds
  `s[a:b]` is `(s.drop a).take (b - a)` (clamping semantics, never failing).
* A highlight dictionary `{"highlight_type": l, "start": a, "end": b}` is the
  structure `Highlight`; the field `end` is a Lean keyword, so it is named
  `stop` here.  Offsets are nonnegative character indices (`Nat`).
* Labels are an arbitrary type `α` with decidable equality; a label of
  `None` is `Option.none`.
* A `postprocess` input is `Option (PValue α)`: `PValue.list` is the
  segment-list variant, `PValue.dict` the dictionary variant whose two
  fields are `Option`s so that a dictionary missing the `"text"` or the
  `"highlights"` key is representable.  The `ValueError` raised on a missing
  key becomes `Except.error` carrying the exact message of the source.
* `sorted(highlights, key=lambda x: x["start"])` is a stable sort with
  comparator `a.start ≤ b.start` (see `sortHighlights`).
-/

namespace HighlightedTextbox

/-- One element of the `"highlights"` list of the dictionary input: a label
(`highlight_type`, possibly absent) and half-open character offsets
`[start, stop)` into the backing text (`stop` embeds the key `"end"`). -/
structure Highlight (α : Type) where
  highlight_type : Option α
  start : Nat
  stop : Nat
  deriving DecidableEq, Repr

/-- A segment: one `(text, label)` tuple of the normalized output. -/
abbrev Seg (α : Type) : Type := List Char × Option α

/-- Python slice `s[a:b]` for nonnegative bounds: clamps, never fails. -/
def pySlice (s : List Char) (a b : Nat) : List Char :=
  (s.drop a).take (b - a)

/-- `sorted(highlights, key=lambda x: x["start"])`: Python's `sorted` is a
stable ascending sort by the key, here `start`.  The embedding uses stable
insertion sort, which agrees with every stable sort by the same key. -/
def sortHighlights {α : Type} (hs : List (Highlight α)) : List (Highlight α) :=
  hs.insertionSort (fun a b => a.start ≤ b.start)

/-- The expansion loop of `postprocess` over the sorted entities, carrying the
cursor `index`: for each entity emit the gap `text[index:start]` with label
`None` and the span `text[start:end]` with the entity's label, then advance
the cursor to `end`; after the loop emit the trailing `(text[index:], None)`. -/
def expandLoop {α : Type} (text : List Char) : Nat → List (Highlight α) → List (Seg α)
  | index, [] => [(text.drop index, none)]
  | index, e :: rest =>
    (pySlice text index e.start, none) ::
      (pySlice text e.start e.stop, e.highlight_type) :: expandLoop text e.stop rest

/-- The dictionary branch of `postprocess`: zero highlights give the single
segment `(text, None)`, otherwise the sorted entities are expanded. -/
def normalizeDict {α : Type} (text : List Char) (hs : List (Highlight α)) : List (Seg α) :=
  if hs.isEmpty then [(text, none)]
  else expandLoop text 0 (sortHighlights hs)

/-- The `combine_adjacent` loop of `postprocess`.  The first component of the
state is the running accumulator (`None` while `running_text is None`).
Branches, in source order: same label → join the texts with the separator;
different label and empty text → skip; otherwise flush the accumulator and
restart from the current segment.  At the end the accumulator is flushed. -/
def mergeLoop {α : Type} [DecidableEq α] (sep : List Char) :
    Option (Seg α) → List (Seg α) → List (Seg α)
  | none, [] => []
  | some r, [] => [r]
  | none, s :: rest => mergeLoop sep (some s) rest
  | some (rt, rc), (t, c) :: rest =>
    if c = rc then mergeLoop sep (some (rt ++ sep ++ t, rc)) rest
    else if t.isEmpty then mergeLoop sep (some (rt, rc)) rest
    else (rt, rc) :: mergeLoop sep (some (t, c)) rest

/-- The merge pass run by `postprocess` when `combine_adjacent` is true. -/
def mergeAdjacent {α : Type} [DecidableEq α] (sep : List Char) (y : List (Seg α)) :
    List (Seg α) :=
  mergeLoop sep none y

/-- A non-`None` `postprocess` input: either a segment list or a dictionary.
The dictionary's fields are `Option`s so that missing keys are representable. -/
inductive PValue (α : Type) where
  | list : List (Seg α) → PValue α
  | dict : Option (List Char) → Option (List (Highlight α)) → PValue α

/-- The message of the `ValueError` raised when a dictionary input misses the
`"text"` or the `"highlights"` key. -/
def postprocessErrorMessage : String :=
  "Expected a dictionary with keys 'text' and 'highlights' " ++
    "for the value of the HighlightedText component."

/-- The input-normalization part of `postprocess`: a segment list passes
through, a dictionary with both keys is expanded, a dictionary missing a key
raises the `ValueError`. -/
def normalizeValue {α : Type} : PValue α → Except String (List (Seg α))
  | .list y => .ok y
  | .dict (some text) (some hs) => .ok (normalizeDict text hs)
  | .dict _ _ => .error postprocessErrorMessage

/-- `HighlightedTextbox.postprocess`: `None` maps to `None`; otherwise the
input is normalized and, when `combine_adjacent` is set, merged. -/
def postprocess {α : Type} [DecidableEq α] (combine_adjacent : Bool)
    (adjacent_separator : List Char) :
    Option (PValue α) → Except String (Option (List (Seg α)))
  | none => .ok none
  | some v =>
    (normalizeValue v).map (fun y =>
      some (if combine_adjacent then mergeAdjacent adjacent_separator y else y))

/-- The scan of Python `x.split(sep)` for a nonempty separator `s0 :: srest`:
`acc` holds the current token reversed; when the separator is a prefix of the
remaining input the token is emitted and the separator consumed, otherwise one
character moves onto the token. -/
def splitAux (s0 : Char) (srest : List Char) : List Char → List Char → List (List Char)
  | acc, [] => [acc.reverse]
  | acc, c :: rest =>
    if (s0 :: srest).isPrefixOf (c :: rest) then
      acc.reverse :: splitAux s0 srest [] (rest.drop srest.length)
    else
      splitAux s0 srest (c :: acc) rest
  termination_by _ x => x.length
  decreasing_by
  · simp only [List.length_cons]
    have := List.length_drop srest.length rest
    omega
  · simp

/-- Python `x.split(sep)`: plain split, no collapsing; an empty separator
raises `ValueError("empty separator")`. -/
def pySplit (sep : List Char) (x : List Char) : Except String (List (List Char)) :=
  match sep with
  | [] => .error "empty separator"
  | s0 :: srest => .ok (splitAux s0 srest [] x)

/-- Python `sep.join(ts)`. -/
def joinSep (sep : List Char) : List (List Char) → List Char
  | [] => []
  | [t] => t
  | t :: ts => t ++ sep ++ joinSep sep ts

/-- `HighlightedTextbox.tokenize`: split the input on the interpretation
separator, then for every token index build the leave-one-out string — the
token list with that index popped (no replacement) or set to the replacement,
rejoined with the separator.  The source's third return component is the
constant `None` and is omitted. -/
def tokenize (separator : List Char) (replacement : Option (List Char))
    (x : List Char) : Except String (List (List Char) × List (List Char)) :=
  (pySplit separator x).map (fun tokens =>
    (tokens,
      (List.range tokens.length).map (fun index =>
        joinSep separator
          (match replacement with
           | none => tokens.eraseIdx index
           | some r => tokens.set index r))))

/-- The loop of `HighlightedTextbox.get_interpretation_scores` over the zipped
`(token, score)` pairs: each pair is followed by `(separator, 0)`. -/
def scoresLoop (sep : List Char) : List (List Char × ℚ) → List (List Char × ℚ)
  | [] => []
  | (t, s) :: rest => (t, s) :: (sep, 0) :: scoresLoop sep rest

/-- `HighlightedTextbox.get_interpretation_scores`: interleave the zipped
token/score pairs with `(separator, 0)` markers.  `zip` silently truncates to
the shorter of the two lists.  Scores are opaque pass-through numbers; the
embedding uses `ℚ`. -/
def get_interpretation_scores (sep : List Char) (tokens : List (List Char))
    (scores : List ℚ) : List (List Char × ℚ) :=
  scoresLoop sep (tokens.zip scores)

/-- Two half-open spans overlap when they share at least one character
position (see `overlaps_iff_exists_shared_position`). -/
abbrev Overlaps {α : Type} (a b : Highlight α) : Prop :=
  max a.start b.start < min a.stop b.stop

/-- The docstring's "Highlights should not overlap": no two distinct spans of
the list share a character position. -/
abbrev NonOverlapping {α : Type} (hs : List (Highlight α)) : Prop :=
  hs.Pairwise (fun a b => ¬ Overlaps a b)

theorem overlaps_iff_exists_shared_position {α : Type} (a b : Highlight α) :
    Overlaps a b ↔
      ∃ k, a.start ≤ k ∧ k < a.stop ∧ b.start ≤ k ∧ k < b.stop := by
  constructor
  · intro h
    exact ⟨max a.start b.start, by omega, by omega, by omega, by omega⟩
  · rintro ⟨k, h1, h2, h3, h4⟩
    omega

theorem mergeLoop_none_cons {α : Type} [DecidableEq α] (sep : List Char)
    (s : Seg α) (l : List (Seg α)) :
    mergeLoop sep none (s :: l) = mergeLoop sep (some s) l := rfl

theorem mergeLoop_some_cons {α : Type} [DecidableEq α] (sep : List Char)
    (rt t : List Char) (rc c : Option α) (l : List (Seg α)) :
    mergeLoop sep (some (rt, rc)) ((t, c) :: l) =
      if c = rc then mergeLoop sep (some (rt ++ sep ++ t, rc)) l
      else if t.isEmpty then mergeLoop sep (some (rt, rc)) l
      else (rt, rc) :: mergeLoop sep (some (t, c)) l := rfl

/-- Claim C3: with `combine_adjacent = False`, `postprocess` returns the
normalized segment sequence unchanged — a non-`None` segment-list input is
returned as-is, and a dictionary input yields exactly the normalizer
output. -/
theorem postprocess_combine_false_identity {α : Type} [DecidableEq α]
    (sep : List Char) :
    (∀ y : List (Seg α), postprocess false sep (some (.list y)) = .ok (some y)) ∧
    (∀ (text : List Char) (hs : List (Highlight α)),
      postprocess false sep (some (.dict (some text) (some hs))) =
        .ok (some (normalizeDict text hs))) :=
  ⟨fun _ => rfl, fun _ _ => rfl⟩

/-- Claim C4: a dictionary input with an empty highlight list produces
exactly the single segment `(text, None)`, whatever the merge flags. -/
theorem postprocess_zero_highlights {α : Type} [DecidableEq α]
    (combine_adjacent : Bool) (sep text : List Char) :
    postprocess (α := α) combine_adjacent sep (some (.dict (some text) (some []))) =
      .ok (some [(text, none)]) := by
  cases combine_adjacent <;> rfl

/-- Claim C9: a dictionary input holding both keys never fails, whatever the
spans — overlapping or out-of-order offsets still yield a segment list. -/
theorem postprocess_dict_no_failure {α : Type} [DecidableEq α]
    (combine_adjacent : Bool) (sep text : List Char) (hs : List (Highlight α)) :
    ∃ out, postprocess combine_adjacent sep (some (.dict (some text) (some hs))) =
      .ok (some out) :=
  ⟨if combine_adjacent then mergeAdjacent sep (normalizeDict text hs)
    else normalizeDict text hs, rfl⟩

/-- Structure of the merge loop started from a set accumulator `(rt, rc)`:
the first output segment extends `rt` and keeps the label `rc`, consecutive
output labels differ, and every output segment after the first has nonempty
text. -/
theorem mergeLoop_some_spec {α : Type} [DecidableEq α] (sep : List Char) :
    ∀ (l : List (Seg α)) (rt : List Char) (rc : Option α),
      ∃ ext rest,
        mergeLoop sep (some (rt, rc)) l = (rt ++ ext, rc) :: rest ∧
        List.Chain' (fun a b : Seg α => a.2 ≠ b.2) ((rt ++ ext, rc) :: rest) ∧
        ∀ s ∈ rest, s.1 ≠ []
  | [], rt, rc => ⟨[], [], by simp [mergeLoop], by simp, by simp⟩
  | (t, c) :: l, rt, rc => by
    rw [mergeLoop_some_cons]
    by_cases hc : c = rc
    · rw [if_pos hc]
      obtain ⟨ext, rest, h1, h2, h3⟩ := mergeLoop_some_spec sep l (rt ++ sep ++ t) rc
      exact ⟨sep ++ t ++ ext, rest, by simpa using h1, by simpa using h2, h3⟩
    · rw [if_neg hc]
      by_cases ht : t.isEmpty
      · rw [if_pos ht]
        exact mergeLoop_some_spec sep l rt rc
      · rw [if_neg ht]
        obtain ⟨ext, rest, h1, h2, h3⟩ := mergeLoop_some_spec sep l t c
        refine ⟨[], (t ++ ext, c) :: rest, by simp [h1], ?_, ?_⟩
        · refine List.Chain'.cons (fun h => hc h.symm) (by simpa using h2)
        · intro s hs
          rcases List.mem_cons.mp hs with h | h
          · subst h
            simp only [ne_eq, List.append_eq_nil]
            intro ⟨h', _⟩
            exact ht (by simp [h'])
          · exact h3 s h

/-- The merge pass yields pairwise-distinct consecutive labels and nonempty
text everywhere after the first segment. -/
theorem mergeAdjacent_chain_and_tail {α : Type} [DecidableEq α] (sep : List Char)
    (y : List (Seg α)) :
    List.Chain' (fun a b : Seg α => a.2 ≠ b.2) (mergeAdjacent sep y) ∧
      ∀ s ∈ (mergeAdjacent sep y).tail, s.1 ≠ [] := by
  cases y with
  | nil => exact ⟨List.chain'_nil, by simp [mergeAdjacent, mergeLoop]⟩
  | cons s l =>
    obtain ⟨t, c⟩ := s
    obtain ⟨ext, rest, h1, h2, h3⟩ := mergeLoop_some_spec sep l t c
    rw [mergeAdjacent, mergeLoop_none_cons, h1]
    exact ⟨h2, by simpa using h3⟩

/-- A list whose consecutive labels differ and whose segments after the first
have nonempty text passes through the merge loop unchanged. -/
theorem mergeLoop_fixpoint {α : Type} [DecidableEq α] (sep : List Char) :
    ∀ (l : List (Seg α)) (rt : List Char) (rc : Option α),
      List.Chain' (fun a b : Seg α => a.2 ≠ b.2) ((rt, rc) :: l) →
      (∀ s ∈ l, s.1 ≠ []) →
      mergeLoop sep (some (rt, rc)) l = (rt, rc) :: l
  | [], rt, rc, _, _ => rfl
  | (t, c) :: l, rt, rc, hchain, htail => by
    rw [mergeLoop_some_cons]
    have hne : ¬ c = rc := by
      have := List.chain'_cons.mp hchain
      exact fun h => this.1 h.symm
    have hte : ¬ t.isEmpty := by
      have := htail (t, c) (by simp)
      simpa using this
    rw [if_neg hne, if_neg hte]
    rw [mergeLoop_fixpoint sep l t c (List.chain'_cons.mp hchain).2
      (fun s hs => htail s (List.mem_cons_of_mem _ hs))]

/-- The merge pass is idempotent on segment lists. -/
theorem mergeAdjacent_idem {α : Type} [DecidableEq α] (sep : List Char)
    (y : List (Seg α)) :
    mergeAdjacent sep (mergeAdjacent sep y) = mergeAdjacent sep y := by
  obtain ⟨hchain, htail⟩ := mergeAdjacent_chain_and_tail sep y
  cases h : mergeAdjacent sep y with
  | nil => rfl
  | cons s l =>
    obtain ⟨rt, rc⟩ := s
    rw [h] at hchain htail
    rw [mergeAdjacent, mergeLoop_none_cons]
    exact mergeLoop_fixpoint sep l rt rc hchain (by simpa using htail)

/-- Claim C2: with `combine_adjacent = True`, feeding the merged output back
through `postprocess` changes nothing — the merge pass is idempotent. -/
theorem postprocess_merge_idempotent {α : Type} [DecidableEq α] (sep : List Char)
    (y : List (Seg α)) :
    postprocess true sep (some (.list (mergeAdjacent sep y))) =
      postprocess true sep (some (.list y)) := by
  show Except.ok (some (mergeAdjacent sep (mergeAdjacent sep y))) =
    Except.ok (some (mergeAdjacent sep y))
  rw [mergeAdjacent_idem]

/-- Claim C10: with `combine_adjacent = True` a segment list is merged so
that no two consecutive output segments carry equal labels. -/
theorem postprocess_merge_no_adjacent_equal_labels {α : Type} [DecidableEq α]
    (sep : List Char) (y : List (Seg α)) :
    postprocess true sep (some (.list y)) = .ok (some (mergeAdjacent sep y)) ∧
      List.Chain' (fun a b : Seg α => a.2 ≠ b.2) (mergeAdjacent sep y) :=
  ⟨rfl, (mergeAdjacent_chain_and_tail sep y).1⟩

instance {α : Type} :
    IsTotal (Highlight α) (fun a b => a.start ≤ b.start) :=
  ⟨fun a b => Nat.le_total a.start b.start⟩

instance {α : Type} :
    IsTrans (Highlight α) (fun a b => a.start ≤ b.start) :=
  ⟨fun _ _ _ hab hbc => Nat.le_trans hab hbc⟩

theorem sortHighlights_perm {α : Type} (hs : List (Highlight α)) :
    List.Perm (sortHighlights hs) hs :=
  List.perm_insertionSort _ hs

theorem sortHighlights_sorted {α : Type} (hs : List (Highlight α)) :
    (sortHighlights hs).Pairwise (fun a b => a.start ≤ b.start) :=
  List.sorted_insertionSort _ hs

theorem overlaps_symm {α : Type} {a b : Highlight α} (h : Overlaps a b) :
    Overlaps b a := by
  unfold Overlaps at h ⊢
  omega

/-- Sorting pairwise non-overlapping spans that are all nonempty yields a
chain in which every span ends at or before the next begins. -/
theorem sortHighlights_chain {α : Type} (hs : List (Highlight α))
    (hnov : NonOverlapping hs) (hne : ∀ e ∈ hs, e.start < e.stop) :
    List.Chain' (fun a b : Highlight α => a.stop ≤ b.start) (sortHighlights hs) := by
  have hperm := sortHighlights_perm hs
  have hnov' : (sortHighlights hs).Pairwise (fun a b => ¬ Overlaps a b) :=
    (List.Perm.pairwise_iff (fun h hov => h (overlaps_symm hov)) hperm).mpr hnov
  have hne' : ∀ e ∈ sortHighlights hs, e.start < e.stop :=
    fun e he => hne e (hperm.subset he)
  refine List.Pairwise.chain' ?_
  refine List.Pairwise.imp_of_mem ?_ ((sortHighlights_sorted hs).and hnov')
  intro a b ha hb hab
  have h1 := hne' a ha
  have h2 := hne' b hb
  obtain ⟨hle, hov⟩ := hab
  unfold Overlaps at hov
  omega

theorem pySlice_append_drop (l : List Char) (a b : Nat) (h : a ≤ b) :
    pySlice l a b ++ l.drop b = l.drop a := by
  unfold pySlice
  have hd : l.drop b = (l.drop a).drop (b - a) := by
    rw [List.drop_drop]
    congr 1
    omega
  rw [hd, List.take_append_drop]

/-- The expansion loop reconstructs the tail of the text from the cursor on,
whenever the spans form a left-to-right chain starting at or after the
cursor. -/
theorem expandLoop_flatten {α : Type} (text : List Char) :
    ∀ (es : List (Highlight α)) (index : Nat),
      (∀ e ∈ es, e.start ≤ e.stop) →
      List.Chain' (fun a b : Highlight α => a.stop ≤ b.start) es →
      (∀ e ∈ es.head?, index ≤ e.start) →
      ((expandLoop text index es).map Prod.fst).flatten = text.drop index
  | [], index, _, _, _ => by simp [expandLoop]
  | e :: rest, index, hb, hchain, hhead => by
    have hidx : index ≤ e.start := hhead e (by simp)
    have hse : e.start ≤ e.stop := hb e (by simp)
    obtain ⟨hh, hc⟩ := List.chain'_cons'.mp hchain
    have ih := expandLoop_flatten text rest e.stop
      (fun x hx => hb x (List.mem_cons_of_mem _ hx)) hc hh
    rw [expandLoop, List.map_cons, List.map_cons, List.flatten_cons,
      List.flatten_cons, ih, pySlice_append_drop text e.start e.stop hse,
      pySlice_append_drop text index e.start hidx]

theorem expandLoop_length {α : Type} (text : List Char) :
    ∀ (es : List (Highlight α)) (index : Nat),
      (expandLoop text index es).length = 2 * es.length + 1
  | [], _ => rfl
  | e :: rest, index => by
    rw [expandLoop]
    simp only [List.length_cons, expandLoop_length text rest e.stop]
    omega

theorem expandLoop_map_snd {α : Type} (text : List Char) :
    ∀ (es : List (Highlight α)) (index : Nat),
      (expandLoop text index es).map Prod.snd =
        (es.map (fun e => [none, e.highlight_type])).flatten ++ [none]
  | [], _ => rfl
  | e :: rest, index => by
    rw [expandLoop]
    simp [expandLoop_map_snd text rest e.stop]

/-- Claim C1, amended to nonempty spans: for a dictionary input whose spans
are pairwise non-overlapping, each with `start < end ≤ len(text)`,
`postprocess` with `combine_adjacent = False` yields segments whose texts
concatenate back to the original text.  (With `start = end` allowed the
property fails, see the counterexample.) -/
theorem postprocess_roundtrip_nonempty_spans {α : Type} [DecidableEq α]
    (sep text : List Char) (hs : List (Highlight α))
    (hb : ∀ e ∈ hs, e.start < e.stop ∧ e.stop ≤ text.length)
    (hnov : NonOverlapping hs) :
    ∃ out, postprocess false sep (some (.dict (some text) (some hs))) =
        .ok (some out) ∧
      (out.map Prod.fst).flatten = text := by
  refine ⟨normalizeDict text hs, rfl, ?_⟩
  unfold normalizeDict
  by_cases h : hs.isEmpty
  · simp [h]
  · rw [if_neg h]
    have := expandLoop_flatten text (sortHighlights hs) 0
      (fun e he =>
        Nat.le_of_lt ((hb e ((sortHighlights_perm hs).subset he)).1))
      (sortHighlights_chain hs hnov (fun e he => (hb e he).1))
      (fun e _ => Nat.zero_le _)
    simpa using this

/-- Claim C1 as stated is false: an empty span lying inside another span is
non-overlapping (it shares no character position with anything) and respects
`0 ≤ start ≤ end ≤ len(text)`, yet on `text = "abcdef"` with spans `[0, 4)`
and `[2, 2)` the concatenation of the output texts is `"abcdcdef"`. -/
theorem postprocess_roundtrip_counterexample :
    ¬ (∀ (sep text : List Char) (hs : List (Highlight String)),
        (∀ e ∈ hs, e.start ≤ e.stop ∧ e.stop ≤ text.length) →
        NonOverlapping hs →
        ∀ out,
          postprocess false sep (some (.dict (some text) (some hs))) =
            .ok (some out) →
          (out.map Prod.fst).flatten = text) := by
  intro h
  have := h [] ['a', 'b', 'c', 'd', 'e', 'f'] [⟨none, 0, 4⟩, ⟨none, 2, 2⟩]
    (by decide) (by decide)
    [([], none), (['a', 'b', 'c', 'd'], none), ([], none), ([], none),
      (['c', 'd', 'e', 'f'], none)]
    rfl
  exact absurd this (by decide)

theorem postprocess_roundtrip_nonempty_spans_witness :
    ∃ out,
      postprocess false [] (some (.dict (some ['a', 'b'])
          (some [(⟨none, 0, 1⟩ : Highlight String)]))) = .ok (some out) ∧
      (out.map Prod.fst).flatten = ['a', 'b'] :=
  postprocess_roundtrip_nonempty_spans [] ['a', 'b'] [⟨none, 0, 1⟩]
    (by decide) (by decide)

/-- Claim C5: a dictionary input with `n ≥ 1` non-overlapping highlights and
`combine_adjacent = False` yields exactly `2n + 1` segments whose labels
alternate: `None` at the even positions (the gaps, emitted even when empty)
and, at the odd positions, the labels of the sorted spans in order. -/
theorem postprocess_expansion_shape {α : Type} [DecidableEq α]
    (sep text : List Char) (hs : List (Highlight α))
    (hne : hs ≠ []) (_hnov : NonOverlapping hs) :
    ∃ out, postprocess false sep (some (.dict (some text) (some hs))) =
        .ok (some out) ∧
      out.length = 2 * hs.length + 1 ∧
      out.map Prod.snd =
        ((sortHighlights hs).map (fun e => [none, e.highlight_type])).flatten
          ++ [none] := by
  have hni : ¬ hs.isEmpty := by simpa using hne
  refine ⟨normalizeDict text hs, rfl, ?_, ?_⟩
  · rw [normalizeDict, if_neg hni, expandLoop_length]
    have := (sortHighlights_perm hs).length_eq
    omega
  · rw [normalizeDict, if_neg hni]
    exact expandLoop_map_snd text (sortHighlights hs) 0

theorem postprocess_expansion_shape_witness :
    ∃ out,
      postprocess false []
          (some (.dict (some ['T', 'h', 'e', ' ', 'c', 'a', 't', ' ', 's', 'a', 't'])
            (some [(⟨some "ANIMAL", 4, 7⟩ : Highlight String)]))) = .ok (some out) ∧
      out.length = 2 * 1 + 1 ∧
      out.map Prod.snd =
        ((sortHighlights [(⟨some "ANIMAL", 4, 7⟩ : Highlight String)]).map
            (fun e => [none, e.highlight_type])).flatten ++ [none] :=
  postprocess_expansion_shape [] ['T', 'h', 'e', ' ', 'c', 'a', 't', ' ', 's', 'a', 't']
    [⟨some "ANIMAL", 4, 7⟩] (by decide) (by decide)

theorem splitAux_ne_nil (s0 : Char) (srest : List Char) :
    ∀ (acc x : List Char), splitAux s0 srest acc x ≠ [] := by
  intro acc x
  induction acc, x using splitAux.induct s0 srest with
  | case1 acc => simp [splitAux]
  | case2 acc c rest hpre ih =>
    rw [splitAux, if_pos hpre]
    simp
  | case3 acc c rest hpre ih =>
    rw [splitAux, if_neg hpre]
    exact ih

theorem joinSep_cons (sep t : List Char) (ts : List (List Char)) (h : ts ≠ []) :
    joinSep sep (t :: ts) = t ++ sep ++ joinSep sep ts := by
  cases ts with
  | nil => exact absurd rfl h
  | cons t' ts' => rfl

/-- Joining the pieces of the split scan with the separator restores the
pending accumulator followed by the unscanned input. -/
theorem joinSep_splitAux (s0 : Char) (srest : List Char) :
    ∀ (acc x : List Char),
      joinSep (s0 :: srest) (splitAux s0 srest acc x) = acc.reverse ++ x := by
  intro acc x
  induction acc, x using splitAux.induct s0 srest with
  | case1 acc => simp [splitAux, joinSep]
  | case2 acc c rest hpre ih =>
    have hx : (s0 :: srest) ++ List.drop srest.length rest = c :: rest := by
      obtain ⟨t, ht⟩ := (List.isPrefixOf_iff_prefix.mp hpre)
      have hdrop : List.drop srest.length rest =
          List.drop (s0 :: srest).length (c :: rest) := by
        simp [List.length_cons]
      rw [hdrop, ← ht, List.drop_left]
    rw [splitAux, if_pos hpre,
      joinSep_cons _ _ _ (splitAux_ne_nil s0 srest _ _), ih, List.reverse_nil,
      List.nil_append, List.append_assoc, hx]
  | case3 acc c rest hpre ih =>
    rw [splitAux, if_neg hpre, ih]
    simp

/-- Claim C6, amended to nonempty separators (Python's `str.split` raises
`ValueError("empty separator")` on an empty separator, see the
counterexample): `tokenize` returns the plain split of the input — whose
rejoin with the separator restores the input exactly, so consecutive
separators keep their empty tokens — together with one masked variant per
token index: the token list with that index removed (no replacement) or set
to the replacement, rejoined with the separator. -/
theorem tokenize_spec (sep : List Char) (hsep : sep ≠ [])
    (replacement : Option (List Char)) (x : List Char) :
    ∃ tokens variants,
      tokenize sep replacement x = .ok (tokens, variants) ∧
      pySplit sep x = .ok tokens ∧
      joinSep sep tokens = x ∧
      variants.length = tokens.length ∧
      ∀ i (_hi : i < tokens.length),
        variants[i]? = some (joinSep sep
          (match replacement with
           | none => tokens.eraseIdx i
           | some r => tokens.set i r)) := by
  cases sep with
  | nil => exact absurd rfl hsep
  | cons s0 srest =>
    refine ⟨splitAux s0 srest [] x, _, rfl, rfl, ?_, ?_, ?_⟩
    · simpa using joinSep_splitAux s0 srest [] x
    · simp [tokenize, pySplit]
    · intro i hi
      cases replacement <;>
        simp [tokenize, pySplit, List.getElem?_map, List.getElem?_range, hi]

theorem tokenize_spec_witness :
    ∃ tokens variants,
      tokenize [' '] none ['a', ' ', 'b', ' ', 'c'] = .ok (tokens, variants) ∧
      pySplit [' '] ['a', ' ', 'b', ' ', 'c'] = .ok tokens ∧
      joinSep [' '] tokens = ['a', ' ', 'b', ' ', 'c'] ∧
      variants.length = tokens.length ∧
      ∀ i (_hi : i < tokens.length),
        variants[i]? = some (joinSep [' '] (tokens.eraseIdx i)) :=
  tokenize_spec [' '] (by decide) none ['a', ' ', 'b', ' ', 'c']

/-- Claim C6 as universally stated over every separator is false: on the
empty separator the source raises `ValueError("empty separator")` (the
behaviour of Python's `str.split`) instead of returning a token list. -/
theorem tokenize_empty_separator_counterexample :
    tokenize [] none ['a'] = .error "empty separator" := rfl

theorem scoresLoop_length (sep : List Char) :
    ∀ l : List (List Char × ℚ), (scoresLoop sep l).length = 2 * l.length
  | [] => rfl
  | (t, s) :: rest => by
    rw [scoresLoop]
    simp only [List.length_cons, scoresLoop_length sep rest]
    omega

theorem scoresLoop_getElem? (sep : List Char) :
    ∀ (l : List (List Char × ℚ)) (i : Nat), i < l.length →
      (scoresLoop sep l)[2 * i]? = l[i]? ∧
        (scoresLoop sep l)[2 * i + 1]? = some (sep, 0)
  | (t, s) :: rest, 0, _ => by simp [scoresLoop]
  | (t, s) :: rest, i + 1, h => by
    have ih := scoresLoop_getElem? sep rest i (by simpa using h)
    have h2 : 2 * (i + 1) = 2 * i + 1 + 1 := by omega
    rw [scoresLoop, h2]
    simpa using ih

/-- Claim C7: `get_interpretation_scores` zips tokens with scores — silently
truncating to the shorter list — and emits, for each pair in order, the
segment `(token, score)` immediately followed by `(separator, 0)`, the
trailing separator segment included: exactly `2 * min` segments. -/
theorem get_interpretation_scores_spec (sep : List Char)
    (tokens : List (List Char)) (scores : List ℚ) :
    (get_interpretation_scores sep tokens scores).length =
        2 * min tokens.length scores.length ∧
      ∀ i (hi : i < min tokens.length scores.length),
        (get_interpretation_scores sep tokens scores)[2 * i]? =
            some (tokens[i], scores[i]) ∧
          (get_interpretation_scores sep tokens scores)[2 * i + 1]? =
            some (sep, 0) := by
  constructor
  · rw [get_interpretation_scores, scoresLoop_length, List.length_zip]
  · intro i hi
    have hz : i < (tokens.zip scores).length := by
      rw [List.length_zip]; exact hi
    have := scoresLoop_getElem? sep (tokens.zip scores) i hz
    rw [get_interpretation_scores]
    refine ⟨?_, this.2⟩
    rw [this.1, List.getElem?_eq_getElem hz, List.getElem_zip]

theorem get_interpretation_scores_spec_witness :
    (get_interpretation_scores [' '] [['a'], ['b']]
        [(1 : ℚ)/10, (2 : ℚ)/10]).length = 2 * min 2 2 ∧
      (get_interpretation_scores [' '] [['a'], ['b']]
          [(1 : ℚ)/10, (2 : ℚ)/10])[2 * 0]? = some (['a'], (1 : ℚ)/10) ∧
      (get_interpretation_scores [' '] [['a'], ['b']]
          [(1 : ℚ)/10, (2 : ℚ)/10])[2 * 0 + 1]? = some ([' '], 0) :=
  ⟨(get_interpretation_scores_spec [' '] [['a'], ['b']] [(1 : ℚ)/10, (2 : ℚ)/10]).1,
    (get_interpretation_scores_spec [' '] [['a'], ['b']]
      [(1 : ℚ)/10, (2 : ℚ)/10]).2 0 (by decide)⟩

/-- Claim C8: a dictionary input missing the `"text"` key or the
`"highlights"` key fails with the `ValueError`, whose fixed message names
both required fields (so in particular the missing ones), and this is the
only validation failure — a dictionary holding both keys never fails. -/
theorem postprocess_missing_key_error {α : Type} [DecidableEq α]
    (combine_adjacent : Bool) (sep : List Char)
    (t? : Option (List Char)) (h? : Option (List (Highlight α)))
    (hmiss : t? = none ∨ h? = none) :
    postprocess combine_adjacent sep (some (.dict t? h?)) =
        .error postprocessErrorMessage ∧
      (∃ pre post, postprocessErrorMessage = pre ++ "text" ++ post) ∧
      (∃ pre post, postprocessErrorMessage = pre ++ "highlights" ++ post) ∧
      ∀ (text : List Char) (hs : List (Highlight α)),
        ∃ out, postprocess combine_adjacent sep
            (some (.dict (some text) (some hs))) = .ok (some out) := by
  refine ⟨?_, ⟨"Expected a dictionary with keys '",
      "' and 'highlights' for the value of the HighlightedText component.",
      rfl⟩,
    ⟨"Expected a dictionary with keys 'text' and '",
      "' for the value of the HighlightedText component.", rfl⟩,
    fun text hs =>
      ⟨if combine_adjacent then mergeAdjacent sep (normalizeDict text hs)
        else normalizeDict text hs, rfl⟩⟩
  rcases hmiss with h | h
  · subst h
    rfl
  · subst h
    cases t? <;> rfl

theorem postprocess_missing_key_error_witness :
    (Option.none = (none : Option (List Char)) ∨
        Option.some [] = (none : Option (List (Highlight String)))) ∧
      (postprocess false [] (some (.dict none (some ([] : List (Highlight String))))) =
          .error postprocessErrorMessage ∧
        (∃ pre post, postprocessErrorMessage = pre ++ "text" ++ post) ∧
        (∃ pre post, postprocessErrorMessage = pre ++ "highlights" ++ post) ∧
        ∀ (text : List Char) (hs : List (Highlight String)),
          ∃ out, postprocess false []
              (some (.dict (some text) (some hs))) = .ok (some out)) :=
  ⟨Or.inl rfl,
    postprocess_missing_key_error false [] none (some []) (Or.inl rfl)⟩

end HighlightedTextbox
